import Mathlib

/-!
Shallow embedding of `src/PDF_Splitter.py` (an invoice PDF splitter).

Strings are modelled as `List Char` (`Str`).  Character classes of Python's
`re` module (`\s`, `\w`, `[0-9]`) are modelled over their ASCII ranges via
code points; Python's `str.lower` is modelled as ASCII lowercasing.  PDF,
image and OCR I/O is abstracted: a `Document` carries the per-page text that
`pdfplumber` would extract, the page count that `pypdf` would report, and the
per-page text that the OCR fallback would recognize; the bytes written into
the archive are represented by a `Content` tag recording which path
(re-serialized original page, or re-encoded raster image) produced them.
-/

abbrev Str := List Char

/-- Python `\s` (ASCII part): space, tab, newline, carriage return, vertical tab, form feed. -/
def isSpaceChar (c : Char) : Bool :=
  decide (c.toNat = 32 ∨ c.toNat = 9 ∨ c.toNat = 10 ∨ c.toNat = 13 ∨ c.toNat = 11 ∨ c.toNat = 12)

/-- The character class `[ \t]` used by `extract_tax_invoice_no`'s first `re.sub`. -/
def isSpTab (c : Char) : Bool :=
  decide (c.toNat = 32 ∨ c.toNat = 9)

/-- The character class `[0-9]`. -/
def isDigitChar (c : Char) : Bool :=
  decide (48 ≤ c.toNat ∧ c.toNat ≤ 57)

/-- Python `\w` (ASCII part): letters, digits, underscore. -/
def isWordChar (c : Char) : Bool :=
  isDigitChar c || decide ((65 ≤ c.toNat ∧ c.toNat ≤ 90) ∨ (97 ≤ c.toNat ∧ c.toNat ≤ 122) ∨ c.toNat = 95)

/-- The class `[0-9\s]` used inside the capture group. -/
def isDigitSpace (c : Char) : Bool :=
  isDigitChar c || isSpaceChar c

/-- The characters replaced by `safe_filename` (line 24): reserved set and control chars 0-31.
Code points: 60 `<`, 62 `>`, 58 `:`, 34 quote, 47 `/`, 92 backslash, 124 `|`, 63 `?`, 42 `*`. -/
def isForbiddenChar (c : Char) : Bool :=
  decide (c.toNat = 60 ∨ c.toNat = 62 ∨ c.toNat = 58 ∨ c.toNat = 34 ∨ c.toNat = 47 ∨
    c.toNat = 92 ∨ c.toNat = 124 ∨ c.toNat = 63 ∨ c.toNat = 42 ∨ c.toNat ≤ 31)

/-- The strip set of `s.strip(" ._")` (line 26): space, period, underscore. -/
def isTrimChar (c : Char) : Bool :=
  decide (c.toNat = 32 ∨ c.toNat = 46 ∨ c.toNat = 95)

/-- ASCII model of Python `str.lower` on one character. -/
def lowerChar (c : Char) : Char :=
  if 65 ≤ c.toNat ∧ c.toNat ≤ 90 then Char.ofNat (c.toNat + 32) else c

/-- ASCII model of Python `str.lower`. -/
def lowerStr (s : Str) : Str := s.map lowerChar

/-- Python `s.strip()` / `s.strip(" ._")` generalized over the stripped class. -/
def stripBy (p : Char → Bool) (s : Str) : Str :=
  ((s.dropWhile p).reverse.dropWhile p).reverse

/-- Worker for `re.sub(class+, " ", s)`: the flag records whether we are inside a run. -/
def collapseAux (p : Char → Bool) : Bool → Str → Str
  | _, [] => []
  | b, c :: cs =>
    if p c then (if b then collapseAux p true cs else ' ' :: collapseAux p true cs)
    else c :: collapseAux p false cs

/-- `re.sub(r"<class>+", " ", s)`: each maximal run of class characters becomes one space. -/
def collapseRuns (p : Char → Bool) (s : Str) : Str := collapseAux p false s

/-- `safe_filename` (lines 22-27): strip, replace forbidden chars by `_`, collapse
whitespace runs to a single space, strip spaces/periods/underscores at the ends,
truncate to `maxLen` characters. -/
def safe_filename (s : Str) (maxLen : Nat) : Str :=
  let s1 := stripBy isSpaceChar s
  let s2 := s1.map (fun c => if isForbiddenChar c then '_' else c)
  let s3 := collapseRuns isSpaceChar s2
  let s4 := stripBy isTrimChar s3
  if maxLen < s4.length then s4.take maxLen else s4

/-- The decimal digit character for `n < 10`. -/
def digitChar (n : Nat) : Char := Char.ofNat (48 + n)

/-- Fuel-driven decimal representation (structural, so it evaluates in the kernel). -/
def natDigitsAux : Nat → Nat → List Char
  | 0, _ => []
  | fuel + 1, n =>
    if n < 10 then [digitChar n]
    else natDigitsAux fuel (n / 10) ++ [digitChar (n % 10)]

/-- Decimal representation of a natural number. -/
def natDigits (n : Nat) : List Char := natDigitsAux (n + 1) n

/-- Python `f"{i:02d}"`: decimal representation zero-padded to width 2. -/
def pad2 (n : Nat) : Str :=
  if n < 10 then '0' :: natDigits n else natDigits n

/-- Replacement of the non-breaking space performed at line 39. -/
def nbspFix (c : Char) : Char := if c.toNat = 160 then ' ' else c

/-- Preprocessing of `extract_tax_invoice_no` (lines 39-40): `\xa0` to space,
then each run of spaces/tabs collapsed to one space. -/
def preprocessText (text : Str) : Str :=
  collapseRuns isSpTab (text.map nbspFix)

def taxLit : Str := ['t', 'a', 'x']

def invoiceLit : Str := ['i', 'n', 'v', 'o', 'i', 'c', 'e']

def noLit : Str := ['n', 'o']

/-- Case-insensitive literal match: returns the rest of the input on success. -/
def matchCI : Str → Str → Option Str
  | [], s => some s
  | _ :: _, [] => none
  | l :: ls, c :: cs => if lowerChar c = l then matchCI ls cs else none

/-- Regex `\s+` (greedy; the following token is always a letter or digit here). -/
def eatWs1 : Str → Option Str
  | [] => none
  | c :: rest => if isSpaceChar c then some (rest.dropWhile isSpaceChar) else none

/-- Regex `x?` for a literal character `x` (the candidates `.` and `:` are disjoint
from the neighbouring tokens, so greedy matching is exact). -/
def eatOpt (x : Char) : Str → Str
  | [] => []
  | c :: rest => if c = x then rest else c :: rest

/-- The literal part `Tax\s+Invoice\s+No` of the pattern, case-insensitively. -/
def afterPhrase (cs : Str) : Option Str :=
  ((((matchCI taxLit cs).bind eatWs1).bind (matchCI invoiceLit)).bind eatWs1).bind (matchCI noLit)

/-- Word boundary test between a last consumed character and the next character
(`none` = end of input). -/
def boundary2 (last : Char) (next : Option Char) : Bool :=
  isWordChar last != (match next with | some c => isWordChar c | none => false)

/-- Backtracking of the greedy `[0-9\s]{3,}` against the trailing `\b`: the input is
the reversed run; returns the longest keepable length, at least 3. -/
def findCutAux : Str → Option Char → Option Nat
  | [], _ => none
  | c :: rest, nxt =>
    if 3 ≤ rest.length + 1 ∧ boundary2 c nxt = true then some (rest.length + 1)
    else findCutAux rest (some c)

/-- Longest `k` with `3 ≤ k ≤ run.length` such that a word boundary holds after
keeping `k` characters of the run. -/
def findCut (run : Str) (nxt : Option Char) : Option Nat :=
  findCutAux run.reverse nxt

/-- One attempt of the pattern `\bTax\s+Invoice\s+No\.?\s*:?\s*([0-9][0-9\s]{3,})\b`
at the current position (the leading `\b` is checked by the caller).  Returns the
capture group on success. -/
def matchAt (cs : Str) : Option Str :=
  match afterPhrase cs with
  | none => none
  | some r5 =>
    let r7 := (eatOpt '.' r5).dropWhile isSpaceChar
    let r9 := (eatOpt ':' r7).dropWhile isSpaceChar
    match r9 with
    | [] => none
    | d :: rest =>
      if isDigitChar d then
        let run := rest.takeWhile isDigitSpace
        match findCut run ((rest.drop run.length).head?) with
        | some k => some (d :: run.take k)
        | none => none
      else none

/-- Boundary condition before the literal `T`: previous character absent or non-word. -/
def nonWordBefore : Option Char → Bool
  | none => true
  | some c => !(isWordChar c)

/-- The scan of `re.search`: earliest start position wins. -/
def searchAux : Option Char → Str → Option Str
  | _, [] => none
  | prev, c :: cs =>
    match (if nonWordBefore prev then matchAt (c :: cs) else none) with
    | some cap => some cap
    | none => searchAux (some c) cs

/-- `re.search` of the invoice pattern (lines 43-47): first match's capture group. -/
def searchInvoice (t : Str) : Option Str := searchAux none t

/-- `re.sub(r"\s+", "", group)` (line 51): remove every whitespace character. -/
def normDigits (cap : Str) : Str := cap.filter (fun c => !(isSpaceChar c))

/-- Python `str.isdigit` over the ASCII digits: non-empty and all digits. -/
def pyIsdigit (s : Str) : Bool := !s.isEmpty && s.all isDigitChar

/-- `extract_tax_invoice_no` (lines 30-52). -/
def extract_tax_invoice_no (text : Str) : Option Str :=
  let t := preprocessText text
  match searchInvoice t with
  | none => none
  | some cap =>
    let digits := normDigits cap
    if pyIsdigit digits then some digits else none

def pdfExt : Str := ['.', 'p', 'd', 'f']

def pSep : Str := ['_', '_', 'p']

def unmatchedStem : Str :=
  ['u', 'n', 'm', 'a', 't', 'c', 'h', 'e', 'd', '_', 'p', 'a', 'g', 'e', '_']

/-- The positional fallback label `f"unmatched_page_{i:02d}"` (lines 139, 163). -/
def unmatchedLabel (i : Nat) : Str := unmatchedStem ++ pad2 i

/-- `build_unique_filename` (lines 95-109).  The used-name set is modelled as a list
of lowercased names; the updated set is returned alongside the chosen filename. -/
def build_unique_filename (base : Str) (used : List Str) (page : Nat) : Str × List Str :=
  let b := safe_filename base 120
  let filename := b ++ pdfExt
  let key := lowerStr filename
  if key ∈ used then
    let f2 := b ++ pSep ++ pad2 page ++ pdfExt
    let k2 := lowerStr f2
    (f2, k2 :: used)
  else
    (filename, key :: used)

/-- Tag recording which strategy produced an archive entry's bytes:
`original i` is page `i` (0-based) re-serialized by pypdf (lines 142-149),
`raster i` is page `i` rasterized and re-encoded as an image PDF (line 166). -/
inductive Content where
  | original (i : Nat)
  | raster (i : Nat)
deriving DecidableEq, Repr

def Content.isOriginal : Content → Bool
  | .original _ => true
  | .raster _ => false

def Content.isRaster : Content → Bool
  | .original _ => false
  | .raster _ => true

/-- Abstraction of the input PDF: per-page text that `pdfplumber` extracts
(lines 55-64, empty string for a page with no text layer), the page count that
pypdf's `reader.pages` reports (line 131, possibly different from pdfplumber's),
and the per-page OCR text that `convert_from_bytes` + `ocr_page_image` yield
(lines 154-157). -/
structure Document where
  plumberTexts : List Str
  pypdfCount : Nat
  ocrTexts : List Str

/-- Python truthiness of an `Optional[str]`: `None` and `""` are falsy. -/
def truthyOpt : Option Str → Bool
  | none => false
  | some s => !s.isEmpty

/-- The base label for page `i` (1-based): the detected invoice number if truthy,
otherwise the positional fallback label (lines 139, 163). -/
def page_base (inv : Nat → Option Str) (i : Nat) : Str :=
  match inv i with
  | some s => if s.isEmpty then unmatchedLabel i else s
  | none => unmatchedLabel i

/-- The per-page emission loop shared by both strategies (lines 133-149 and
156-166): for each page ordinal, skip it when unmatched and `skip` is set,
otherwise allocate a unique filename and emit an entry. -/
def emitPages (inv : Nat → Option Str) (content : Nat → Content) (skip : Bool) :
    List Nat → List Str → List (Str × Content)
  | [], _ => []
  | i :: rest, used =>
    if !(truthyOpt (inv i)) && skip then emitPages inv content skip rest used
    else
      let r := build_unique_filename (page_base inv i) used i
      (r.1, content i) :: emitPages inv content skip rest r.2

/-- The lookup `invs[i-1] if (i-1) < len(invs) else None` (line 134). -/
def textPageInv (invs : List (Option Str)) (i : Nat) : Option Str :=
  invs.getD (i - 1) none

/-- The OCR-path detection for page `i` (lines 157-158). -/
def ocrPageInv (doc : Document) (i : Nat) : Option Str :=
  extract_tax_invoice_no (doc.ocrTexts.getD (i - 1) [])

def contentOriginal (i : Nat) : Content := Content.original (i - 1)

def contentRaster (i : Nat) : Content := Content.raster (i - 1)

/-- The per-page text-layer results (lines 122-124): empty when `force_ocr` is set. -/
def selected_invs (doc : Document) (force_ocr : Bool) : List (Option Str) :=
  if force_ocr then [] else doc.plumberTexts.map extract_tax_invoice_no

/-- The strategy decision (lines 126-129): the text-layer path is taken exactly when
some page produced a truthy match and OCR is not forced. -/
def text_strategy_selected (doc : Document) (force_ocr : Bool) : Bool :=
  (if (selected_invs doc force_ocr).isEmpty then false
   else (selected_invs doc force_ocr).any truthyOpt) && !force_ocr

/-- `split_pdf_to_zip` (lines 112-169): the archive is modelled as the ordered list
of (filename, content) entries written by `zf.writestr`. -/
def split_pdf_to_zip (doc : Document) (skip_unmatched force_ocr : Bool) :
    List (Str × Content) :=
  if text_strategy_selected doc force_ocr then
    emitPages (textPageInv (selected_invs doc force_ocr)) contentOriginal skip_unmatched
      (List.range' 1 doc.pypdfCount) []
  else
    emitPages (ocrPageInv doc) contentRaster skip_unmatched
      (List.range' 1 doc.ocrTexts.length) []

/-- Adjacent double underscore detector: `hasDU s = true` iff `s` contains `__`. -/
def hasDU : Str → Bool
  | [] => false
  | [_] => false
  | c :: d :: rest => (c == '_' && d == '_') || hasDU (d :: rest)

/-- Whether the literal phrase `Tax Invoice No` (with `\s+` gaps) occurs at this
position, case-insensitively. -/
def phraseAt (cs : Str) : Bool := (afterPhrase cs).isSome

/-- Whether the literal phrase occurs anywhere in the text. -/
def phrasePresent : Str → Bool
  | [] => false
  | c :: cs => phraseAt (c :: cs) || phrasePresent cs

/-- A 3-page document where only page 2 has no detected invoice number. -/
def doc3ex : Document :=
  { plumberTexts := [ "Tax Invoice No: 1111".toList, [], "Tax Invoice No: 2222".toList ]
    pypdfCount := 3
    ocrTexts := [] }

/-! ### Basic lemmas: lowercasing, double underscores, decimal digits -/

theorem lowerStr_append (a b : Str) : lowerStr (a ++ b) = lowerStr a ++ lowerStr b :=
  List.map_append lowerChar a b

theorem map_fix {f : Char → Char} {s : Str} (h : ∀ c ∈ s, f c = c) : s.map f = s :=
  (List.map_congr_left h).trans (List.map_id s)

theorem lowerChar_digit {c : Char} (h : isDigitChar c = true) : lowerChar c = c := by
  have hb : 48 ≤ c.toNat ∧ c.toNat ≤ 57 := by simpa [isDigitChar] using h
  unfold lowerChar
  rw [if_neg]
  omega

theorem lowerStr_pdfExt : lowerStr pdfExt = pdfExt := by decide

theorem lowerStr_pSep : lowerStr pSep = pSep := by decide

theorem hasDU_cons_of (c : Char) {s : Str} (h : hasDU s = true) : hasDU (c :: s) = true := by
  cases s with
  | nil => simp [hasDU] at h
  | cons d t => simp [hasDU, h]

theorem hasDU_append_of_right {b : Str} (a : Str) (h : hasDU b = true) : hasDU (a ++ b) = true := by
  induction a with
  | nil => simpa using h
  | cons c a ih => rw [List.cons_append]; exact hasDU_cons_of c ih

theorem hasDU_pattern (a r : Str) : hasDU (a ++ '_' :: '_' :: r) = true := by
  apply hasDU_append_of_right
  simp [hasDU]

theorem hasDU_false_of_no_underscore {s : Str} (h : ∀ c ∈ s, c ≠ '_') : hasDU s = false := by
  induction s with
  | nil => rfl
  | cons c t ih =>
    cases t with
    | nil => rfl
    | cons d u =>
      have hc : c ≠ '_' := h c (by simp)
      have rest : hasDU (d :: u) = false := ih (fun x hx => h x (by simp [hx]))
      simp [hasDU, rest, hc]

theorem hasDU_take {s : Str} (h : hasDU s = false) (n : Nat) : hasDU (s.take n) = false := by
  induction s generalizing n with
  | nil => cases n <;> rfl
  | cons c t ih =>
    cases n with
    | zero => rfl
    | succ m =>
      cases t with
      | nil => cases m <;> rfl
      | cons d u =>
        have h1 : (c == '_' && d == '_') = false ∧ hasDU (d :: u) = false := by
          simpa [hasDU, Bool.or_eq_false_iff] using h
        cases m with
        | zero => simp [hasDU]
        | succ k =>
          have h2 : hasDU ((d :: u).take (k + 1)) = false := ih h1.2 (k + 1)
          simp only [List.take] at h2 ⊢
          simp [hasDU, h1.1, h2]

theorem digit_isDigit : ∀ n < 10, isDigitChar (digitChar n) = true := by decide

theorem digitChar_inj : ∀ a < 10, ∀ b < 10, digitChar a = digitChar b → a = b := by decide

theorem digitChar_ne_zero : ∀ n < 10, n ≠ 0 → digitChar n ≠ '0' := by decide

theorem natDigitsAux_irrel : ∀ f1 n, n < f1 → ∀ f2, n < f2 → natDigitsAux f1 n = natDigitsAux f2 n := by
  intro f1
  induction f1 with
  | zero => intro n h; omega
  | succ f ih =>
    intro n h f2 h2
    cases f2 with
    | zero => omega
    | succ g =>
      simp only [natDigitsAux]
      by_cases h10 : n < 10
      · simp [h10]
      · simp only [if_neg h10]
        have hd : n / 10 < n := Nat.div_lt_self (by omega) (by omega)
        rw [ih (n / 10) (by omega) g (by omega)]

theorem natDigits_eq (n : Nat) : natDigits n =
    if n < 10 then [digitChar n] else natDigits (n / 10) ++ [digitChar (n % 10)] := by
  by_cases h10 : n < 10
  · simp only [if_pos h10, natDigits, natDigitsAux, if_pos h10]
  · have hd : n / 10 < n := Nat.div_lt_self (by omega) (by omega)
    calc natDigits n = natDigitsAux (n + 1) n := rfl
      _ = natDigitsAux n (n / 10) ++ [digitChar (n % 10)] := by
          simp only [natDigitsAux, if_neg h10]
      _ = natDigitsAux (n / 10 + 1) (n / 10) ++ [digitChar (n % 10)] := by
          rw [natDigitsAux_irrel n (n / 10) hd (n / 10 + 1) (by omega)]
      _ = if n < 10 then [digitChar n] else natDigits (n / 10) ++ [digitChar (n % 10)] := by
          rw [if_neg h10]; rfl

theorem natDigits_ne_nil (n : Nat) : natDigits n ≠ [] := by
  rw [natDigits_eq]
  by_cases h : n < 10 <;> simp [h]

theorem natDigits_all_digit (n : Nat) : ∀ c ∈ natDigits n, isDigitChar c = true := by
  induction n using Nat.strong_induction_on with
  | _ n ih =>
    rw [natDigits_eq]
    by_cases h : n < 10
    · simpa [h] using digit_isDigit n h
    · simp only [if_neg h, List.mem_append, List.mem_singleton]
      rintro c (hc | rfl)
      · exact ih (n / 10) (Nat.div_lt_self (by omega) (by omega)) c hc
      · exact digit_isDigit _ (Nat.mod_lt _ (by omega))

theorem concat_inj {l1 l2 : Str} {a b : Char} (h : l1 ++ [a] = l2 ++ [b]) : l1 = l2 ∧ a = b := by
  have h2 := List.append_inj' h rfl
  exact ⟨h2.1, by simpa using h2.2⟩

theorem natDigits_inj : ∀ m, ∀ n, natDigits m = natDigits n → m = n := by
  intro m
  induction m using Nat.strong_induction_on with
  | _ m ih =>
    intro n h
    rw [natDigits_eq m, natDigits_eq n] at h
    by_cases hm : m < 10 <;> by_cases hn : n < 10
    · simp only [if_pos hm, if_pos hn] at h
      injection h with h1 _
      exact digitChar_inj m hm n hn h1
    · exfalso
      simp only [if_pos hm, if_neg hn] at h
      cases hnd : natDigits (n / 10) with
      | nil => exact natDigits_ne_nil (n / 10) hnd
      | cons c t =>
        rw [hnd] at h
        have hlen := congrArg List.length h
        simp only [List.length_cons, List.length_append, List.length_nil] at hlen
        omega
    · exfalso
      simp only [if_neg hm, if_pos hn] at h
      cases hnd : natDigits (m / 10) with
      | nil => exact natDigits_ne_nil (m / 10) hnd
      | cons c t =>
        rw [hnd] at h
        have hlen := congrArg List.length h
        simp only [List.length_cons, List.length_append, List.length_nil] at hlen
        omega
    · simp only [if_neg hm, if_neg hn] at h
      obtain ⟨h1, h2⟩ := concat_inj h
      have e1 : m / 10 = n / 10 :=
        ih (m / 10) (Nat.div_lt_self (by omega) (by omega)) (n / 10) h1
      have e2 : m % 10 = n % 10 :=
        digitChar_inj _ (Nat.mod_lt _ (by omega)) _ (Nat.mod_lt _ (by omega)) h2
      omega

theorem natDigits_head_ne_zero : ∀ n, 1 ≤ n → ∃ c t, natDigits n = c :: t ∧ c ≠ '0' := by
  intro n
  induction n using Nat.strong_induction_on with
  | _ n ih =>
    intro h1
    rw [natDigits_eq]
    by_cases h10 : n < 10
    · exact ⟨digitChar n, [], by simp [h10], digitChar_ne_zero n h10 (by omega)⟩
    · have hd : n / 10 < n := Nat.div_lt_self (by omega) (by omega)
      have h1' : 1 ≤ n / 10 := (Nat.le_div_iff_mul_le (by omega)).mpr (by omega)
      obtain ⟨c, t, heq, hne⟩ := ih (n / 10) hd h1'
      exact ⟨c, t ++ [digitChar (n % 10)], by simp [if_neg h10, heq], hne⟩

theorem pad2_all_digit (n : Nat) : ∀ c ∈ pad2 n, isDigitChar c = true := by
  unfold pad2
  by_cases h : n < 10
  · simp only [if_pos h, List.mem_cons]
    rintro c (rfl | hc)
    · decide
    · exact natDigits_all_digit n c hc
  · simp only [if_neg h]
    exact natDigits_all_digit n

theorem pad2_concat (n : Nat) : ∃ a d, pad2 n = a ++ [d] ∧ isDigitChar d = true := by
  unfold pad2
  by_cases h : n < 10
  · refine ⟨['0'], digitChar n, ?_, digit_isDigit n h⟩
    rw [natDigits_eq]
    simp [h]
  · rw [natDigits_eq]
    simp only [if_neg h]
    exact ⟨natDigits (n / 10), digitChar (n % 10), rfl, digit_isDigit _ (Nat.mod_lt _ (by omega))⟩

theorem pad2_inj : ∀ m n, pad2 m = pad2 n → m = n := by
  intro m n h
  unfold pad2 at h
  by_cases hm : m < 10 <;> by_cases hn : n < 10
  · simp only [if_pos hm, if_pos hn] at h
    injection h with _ h2
    exact natDigits_inj m n h2
  · exfalso
    simp only [if_pos hm, if_neg hn] at h
    obtain ⟨c, t, heq, hne⟩ := natDigits_head_ne_zero n (by omega)
    rw [heq] at h
    injection h with h1 _
    exact hne h1.symm
  · exfalso
    simp only [if_neg hm, if_pos hn] at h
    obtain ⟨c, t, heq, hne⟩ := natDigits_head_ne_zero m (by omega)
    rw [heq] at h
    injection h with h1 _
    exact hne h1
  · simp only [if_neg hm, if_neg hn] at h
    exact natDigits_inj m n h

theorem pad2_len (n : Nat) : 2 ≤ (pad2 n).length := by
  unfold pad2
  by_cases h : n < 10
  · simp only [if_pos h]
    rw [natDigits_eq]
    simp [h]
  · simp only [if_neg h]
    rw [natDigits_eq]
    simp only [if_neg h]
    have := natDigits_ne_nil (n / 10)
    cases hnd : natDigits (n / 10) with
    | nil => exact absurd hnd this
    | cons c t => simp

theorem lowerStr_pad2 (n : Nat) : lowerStr (pad2 n) = pad2 n :=
  map_fix (fun c hc => lowerChar_digit (pad2_all_digit n c hc))

/-! ### Injectivity of allocated keys -/

theorem pat_eq_append {u b n1 n2 : Str} (hDU : hasDU (b ++ u) = false)
    (heq : '_' :: '_' :: 'p' :: n1 = u ++ ('_' :: '_' :: 'p' :: n2)) : u = [] := by
  rcases u with _ | ⟨c, _ | ⟨d, _ | ⟨e, u'⟩⟩⟩
  · rfl
  · simp only [List.cons_append, List.nil_append] at heq
    injection heq with e1 r1
    injection r1 with e2 r2
    injection r2 with e3 _
    exact absurd e3 (by decide)
  · simp only [List.cons_append, List.nil_append] at heq
    injection heq with e1 r1
    injection r1 with e2 r2
    injection r2 with e3 _
    exact absurd e3 (by decide)
  · exfalso
    simp only [List.cons_append] at heq
    injection heq with e1 r1
    injection r1 with e2 r2
    injection r2 with e3 _
    rw [← e1, ← e2, ← e3] at hDU
    exact absurd (hasDU_pattern b ('p' :: u')) (by simp [hDU])

theorem suff_eq_suff {b1 b2 n1 n2 : Str} (h1 : hasDU b1 = false) (h2 : hasDU b2 = false)
    (heq : b1 ++ '_' :: '_' :: 'p' :: n1 = b2 ++ '_' :: '_' :: 'p' :: n2) :
    b1 = b2 ∧ n1 = n2 := by
  rcases List.append_eq_append_iff.mp heq with ⟨u, hb, hx⟩ | ⟨u, hb, hx⟩
  · have hu : u = [] := pat_eq_append (hb ▸ h2) hx
    subst hu
    simp only [List.nil_append] at hx hb
    injection hx with _ r1
    injection r1 with _ r2
    injection r2 with _ r3
    exact ⟨by simp [hb], r3⟩
  · have hu : u = [] := pat_eq_append (hb ▸ h1) hx
    subst hu
    simp only [List.nil_append] at hx hb
    injection hx with _ r1
    injection r1 with _ r2
    injection r2 with _ r3
    exact ⟨by simp [hb], r3.symm⟩

theorem suff_ne_plain {b1 b2 n1 : Str} (h2 : hasDU b2 = false)
    (heq : b1 ++ '_' :: '_' :: 'p' :: n1 = b2 ++ pdfExt) : False := by
  rcases List.append_eq_append_iff.mp heq with ⟨u, hb, hx⟩ | ⟨u, hb, hx⟩
  · rcases u with _ | ⟨c, _ | ⟨d, _ | ⟨e, u'⟩⟩⟩
    · simp [pdfExt] at hx
    · simp [pdfExt] at hx
    · simp [pdfExt] at hx
    · simp only [List.cons_append] at hx
      injection hx with e1 r1
      injection r1 with e2 r2
      injection r2 with e3 _
      rw [← e1, ← e2, ← e3] at hb
      rw [hb] at h2
      exact absurd (hasDU_pattern b1 ('p' :: u')) (by simp [h2])
  · rcases u with _ | ⟨c, _ | ⟨d, u'⟩⟩
    · simp [pdfExt] at hx
    · simp [pdfExt] at hx
    · have hlen := congrArg List.length hx
      simp [pdfExt] at hlen
      omega

/-! ### Character-level facts about the sanitizer -/

theorem digit_not_forbidden {c : Char} (h : isDigitChar c = true) : isForbiddenChar c = false := by
  have hb : 48 ≤ c.toNat ∧ c.toNat ≤ 57 := by simpa [isDigitChar] using h
  simp only [isForbiddenChar, decide_eq_false_iff_not]
  omega

theorem digit_not_space {c : Char} (h : isDigitChar c = true) : isSpaceChar c = false := by
  have hb : 48 ≤ c.toNat ∧ c.toNat ≤ 57 := by simpa [isDigitChar] using h
  simp only [isSpaceChar, decide_eq_false_iff_not]
  omega

theorem digit_not_trim {c : Char} (h : isDigitChar c = true) : isTrimChar c = false := by
  have hb : 48 ≤ c.toNat ∧ c.toNat ≤ 57 := by simpa [isDigitChar] using h
  simp only [isTrimChar, decide_eq_false_iff_not]
  omega

theorem digit_ne_underscore {c : Char} (h : isDigitChar c = true) : c ≠ '_' := by
  intro e
  rw [e] at h
  exact absurd h (by decide)

theorem mem_collapseAux {p : Char → Bool} {c : Char} :
    ∀ (b : Bool) (s : Str), c ∈ collapseAux p b s → c = ' ' ∨ c ∈ s := by
  intro b s
  induction s generalizing b with
  | nil => intro h; simp [collapseAux] at h
  | cons d t ih =>
    intro h
    unfold collapseAux at h
    split at h
    · split at h
      · rcases ih true h with h1 | h1
        · exact Or.inl h1
        · exact Or.inr (List.mem_cons_of_mem d h1)
      · rcases List.mem_cons.mp h with rfl | h1
        · exact Or.inl rfl
        · rcases ih true h1 with h2 | h2
          · exact Or.inl h2
          · exact Or.inr (List.mem_cons_of_mem d h2)
    · rcases List.mem_cons.mp h with rfl | h1
      · exact Or.inr (List.mem_cons_self c t)
      · rcases ih false h1 with h2 | h2
        · exact Or.inl h2
        · exact Or.inr (List.mem_cons_of_mem d h2)

theorem mem_stripBy {p : Char → Bool} {c : Char} {s : Str} (h : c ∈ stripBy p s) : c ∈ s := by
  unfold stripBy at h
  have h1 := List.mem_reverse.mp h
  have h2 := (List.dropWhile_sublist p).subset h1
  have h3 := List.mem_reverse.mp h2
  exact (List.dropWhile_sublist p).subset h3

theorem safe_filename_chars {s : Str} {n : Nat} {c : Char} (h : c ∈ safe_filename s n) :
    c = ' ' ∨ ∃ a, a ∈ s ∧ c = if isForbiddenChar a then '_' else a := by
  simp only [safe_filename] at h
  have h4 : c ∈ stripBy isTrimChar (collapseRuns isSpaceChar
      ((stripBy isSpaceChar s).map (fun c => if isForbiddenChar c then '_' else c))) := by
    split at h
    · exact List.take_subset _ _ h
    · exact h
  have h3 := mem_stripBy h4
  rcases mem_collapseAux _ _ h3 with rfl | h2
  · exact Or.inl rfl
  · obtain ⟨a, ha, rfl⟩ := List.mem_map.mp h2
    exact Or.inr ⟨a, mem_stripBy ha, rfl⟩

theorem safe_filename_not_forbidden {s : Str} {n : Nat} {c : Char}
    (h : c ∈ safe_filename s n) : isForbiddenChar c = false := by
  rcases safe_filename_chars h with rfl | ⟨a, _, rfl⟩
  · decide
  · by_cases hf : isForbiddenChar a = true
    · simp only [hf, if_true]
      decide
    · simp only [Bool.not_eq_true] at hf
      simp [hf]

theorem safe_filename_len (s : Str) (n : Nat) : (safe_filename s n).length ≤ n := by
  simp only [safe_filename]
  split
  · simp [List.length_take]
  · omega

theorem base_ok_digits {s : Str} (hdig : ∀ c ∈ s, isDigitChar c = true) :
    hasDU (lowerStr (safe_filename s 120)) = false := by
  apply hasDU_false_of_no_underscore
  intro c hc
  obtain ⟨a, ha, rfl⟩ := List.mem_map.mp hc
  rcases safe_filename_chars ha with rfl | ⟨x, hx, rfl⟩
  · decide
  · have hxd : isDigitChar x = true := hdig x hx
    rw [digit_not_forbidden hxd]
    simp only [Bool.false_eq_true, if_false]
    rw [lowerChar_digit hxd]
    exact digit_ne_underscore hxd

/-! ### The sanitized base labels used by split contain no double underscore -/

theorem dropWhile_false_head {p : Char → Bool} {c : Char} {t : Str} (h : p c = false) :
    (c :: t).dropWhile p = c :: t := by
  simp [List.dropWhile_cons, h]

theorem stripBy_noop {p : Char → Bool} (c d : Char) (m : Str) (hc : p c = false) (hd : p d = false) :
    stripBy p (c :: (m ++ [d])) = c :: (m ++ [d]) := by
  unfold stripBy
  rw [dropWhile_false_head hc]
  rw [show (c :: (m ++ [d])).reverse = d :: (m.reverse ++ [c]) by simp]
  rw [dropWhile_false_head hd]
  simp

theorem collapseAux_noop {p : Char → Bool} {s : Str} (h : ∀ c ∈ s, p c = false) :
    ∀ b, collapseAux p b s = s := by
  induction s with
  | nil => intro b; rfl
  | cons d t ih =>
    intro b
    unfold collapseAux
    rw [if_neg (by simp [h d (List.mem_cons_self d t)])]
    rw [ih (fun x hx => h x (List.mem_cons_of_mem d hx)) false]

theorem hasDU_underscore_digits {ds : Str} (h : ∀ c ∈ ds, isDigitChar c = true) :
    hasDU ('_' :: ds) = false := by
  cases ds with
  | nil => rfl
  | cons dd t =>
    have h1 : (dd == '_') = false := by
      simp only [beq_eq_false_iff_ne, ne_eq]
      exact digit_ne_underscore (h dd (List.mem_cons_self dd t))
    have h2 : hasDU (dd :: t) = false :=
      hasDU_false_of_no_underscore (fun x hx => digit_ne_underscore (h x hx))
    simp [hasDU, h1, h2]

theorem hasDU_unmatchedLabel (i : Nat) : hasDU (unmatchedLabel i) = false := by
  have hu : hasDU ('_' :: pad2 i) = false := hasDU_underscore_digits (pad2_all_digit i)
  simp [unmatchedLabel, unmatchedStem, hasDU, hu]

theorem unmatchedStem_chars :
    ∀ c ∈ unmatchedStem, isSpaceChar c = false ∧ isForbiddenChar c = false ∧ lowerChar c = c := by
  decide

theorem lowerStr_unmatchedLabel (i : Nat) : lowerStr (unmatchedLabel i) = unmatchedLabel i := by
  apply map_fix
  intro c hc
  rcases List.mem_append.mp hc with hc | hc
  · exact (unmatchedStem_chars c hc).2.2
  · exact lowerChar_digit (pad2_all_digit i c hc)

theorem safe_filename_unmatchedLabel (i : Nat) :
    safe_filename (unmatchedLabel i) 120 = (unmatchedLabel i).take 120 ∨
      safe_filename (unmatchedLabel i) 120 = unmatchedLabel i := by
  obtain ⟨a, dd, hpc, hdd⟩ := pad2_concat i
  have hL : unmatchedLabel i =
      'u' :: ((['n', 'm', 'a', 't', 'c', 'h', 'e', 'd', '_', 'p', 'a', 'g', 'e', '_'] ++ a) ++ [dd]) := by
    simp [unmatchedLabel, unmatchedStem, hpc]
  have hmem : ∀ c ∈ unmatchedLabel i, isSpaceChar c = false ∧ isForbiddenChar c = false := by
    intro c hc
    rcases List.mem_append.mp hc with hc | hc
    · exact ⟨(unmatchedStem_chars c hc).1, (unmatchedStem_chars c hc).2.1⟩
    · exact ⟨digit_not_space (pad2_all_digit i c hc), digit_not_forbidden (pad2_all_digit i c hc)⟩
  have s1 : stripBy isSpaceChar (unmatchedLabel i) = unmatchedLabel i := by
    rw [hL]
    exact stripBy_noop 'u' dd _ (by decide) (digit_not_space hdd)
  have s2 : (unmatchedLabel i).map (fun c => if isForbiddenChar c then '_' else c)
      = unmatchedLabel i :=
    map_fix (fun c hc => by simp [(hmem c hc).2])
  have s3 : collapseRuns isSpaceChar (unmatchedLabel i) = unmatchedLabel i :=
    collapseAux_noop (fun c hc => (hmem c hc).1) false
  have s4 : stripBy isTrimChar (unmatchedLabel i) = unmatchedLabel i := by
    rw [hL]
    exact stripBy_noop 'u' dd _ (by decide) (digit_not_trim hdd)
  simp only [safe_filename, s1, s2, s3, s4]
  split
  · exact Or.inl rfl
  · exact Or.inr rfl

theorem base_ok_unmatched (i : Nat) :
    hasDU (lowerStr (safe_filename (unmatchedLabel i) 120)) = false := by
  rcases safe_filename_unmatchedLabel i with h | h
  · rw [h]
    have hmap : List.map lowerChar (unmatchedLabel i) = unmatchedLabel i :=
      lowerStr_unmatchedLabel i
    have : lowerStr ((unmatchedLabel i).take 120) = (unmatchedLabel i).take 120 := by
      unfold lowerStr
      rw [List.map_take, hmap]
    rw [this]
    exact hasDU_take (hasDU_unmatchedLabel i) 120
  · rw [h, lowerStr_unmatchedLabel i]
    exact hasDU_unmatchedLabel i

/-! ### Uniqueness of allocated filenames -/

theorem key_suffix_shape (b : Str) (j : Nat) :
    b ++ pSep ++ pad2 j ++ pdfExt = b ++ '_' :: '_' :: 'p' :: (pad2 j ++ pdfExt) := by
  simp [pSep, List.append_assoc]

theorem lower_plain (b : Str) : lowerStr (b ++ pdfExt) = lowerStr b ++ pdfExt := by
  rw [lowerStr_append, lowerStr_pdfExt]

theorem lower_suffixed (b : Str) (j : Nat) :
    lowerStr (b ++ pSep ++ pad2 j ++ pdfExt) = lowerStr b ++ pSep ++ pad2 j ++ pdfExt := by
  rw [lowerStr_append, lowerStr_append, lowerStr_append, lowerStr_pdfExt, lowerStr_pSep,
    lowerStr_pad2]

theorem build_unique_spec (base : Str) (used : List Str) (page : Nat) :
    build_unique_filename base used page =
      if lowerStr (safe_filename base 120 ++ pdfExt) ∈ used then
        (safe_filename base 120 ++ pSep ++ pad2 page ++ pdfExt,
         lowerStr (safe_filename base 120 ++ pSep ++ pad2 page ++ pdfExt) :: used)
      else
        (safe_filename base 120 ++ pdfExt, lowerStr (safe_filename base 120 ++ pdfExt) :: used) :=
  rfl

theorem suffkey_not_in_used {used : List Str} {pages : List Nat} {i : Nat} {lb : Str}
    (hDU : hasDU lb = false)
    (hinv : ∀ k ∈ used, ∃ b, hasDU b = false ∧
      (k = b ++ pdfExt ∨ ∃ j, j ∉ pages ∧ k = b ++ pSep ++ pad2 j ++ pdfExt))
    (hi : i ∈ pages) :
    lb ++ pSep ++ pad2 i ++ pdfExt ∉ used := by
  intro hk
  obtain ⟨b, hb, hsh | ⟨j, hj, hsh⟩⟩ := hinv _ hk
  · rw [key_suffix_shape] at hsh
    exact suff_ne_plain hb hsh
  · rw [key_suffix_shape, key_suffix_shape] at hsh
    obtain ⟨_, hnn⟩ := suff_eq_suff hDU hb hsh
    have hij : i = j := pad2_inj _ _ (List.append_cancel_right hnn)
    exact hj (hij ▸ hi)

theorem emit_good (inv : Nat → Option Str) (content : Nat → Content) (skip : Bool) :
    ∀ (pages : List Nat) (used : List Str),
      pages.Nodup →
      (∀ i ∈ pages, hasDU (lowerStr (safe_filename (page_base inv i) 120)) = false) →
      (∀ k ∈ used, ∃ b, hasDU b = false ∧
        (k = b ++ pdfExt ∨ ∃ j, j ∉ pages ∧ k = b ++ pSep ++ pad2 j ++ pdfExt)) →
      (emitPages inv content skip pages used).Pairwise (fun a b => lowerStr a.1 ≠ lowerStr b.1) ∧
      ∀ e ∈ emitPages inv content skip pages used, lowerStr e.1 ∉ used := by
  intro pages
  induction pages with
  | nil =>
    intro used _ _ _
    exact ⟨List.Pairwise.nil, by simp [emitPages]⟩
  | cons i rest ih =>
    intro used hnd hbase hinv
    have hnd' : rest.Nodup := hnd.of_cons
    have hi_rest : i ∉ rest := (List.nodup_cons.mp hnd).1
    have hbase' : ∀ j ∈ rest, hasDU (lowerStr (safe_filename (page_base inv j) 120)) = false :=
      fun j hj => hbase j (List.mem_cons_of_mem i hj)
    have hbase_i := hbase i (List.mem_cons_self i rest)
    simp only [emitPages]
    by_cases hskip : (!(truthyOpt (inv i)) && skip) = true
    · rw [if_pos hskip]
      apply ih used hnd' hbase'
      intro k hk
      obtain ⟨b, hb, hsh | ⟨j, hj, hsh⟩⟩ := hinv k hk
      · exact ⟨b, hb, Or.inl hsh⟩
      · exact ⟨b, hb, Or.inr ⟨j, fun hmem => hj (List.mem_cons_of_mem i hmem), hsh⟩⟩
    · rw [if_neg hskip, build_unique_spec]
      by_cases hmem : lowerStr (safe_filename (page_base inv i) 120 ++ pdfExt) ∈ used
      · rw [if_pos hmem]
        have hKeq : lowerStr (safe_filename (page_base inv i) 120 ++ pSep ++ pad2 i ++ pdfExt) =
            lowerStr (safe_filename (page_base inv i) 120) ++ pSep ++ pad2 i ++ pdfExt :=
          lower_suffixed _ i
        have hKnot : lowerStr (safe_filename (page_base inv i) 120 ++ pSep ++ pad2 i ++ pdfExt)
            ∉ used := by
          rw [hKeq]
          exact suffkey_not_in_used hbase_i hinv (List.mem_cons_self i rest)
        have hinv' : ∀ k ∈ lowerStr (safe_filename (page_base inv i) 120 ++ pSep ++ pad2 i ++ pdfExt)
            :: used, ∃ b, hasDU b = false ∧
            (k = b ++ pdfExt ∨ ∃ j, j ∉ rest ∧ k = b ++ pSep ++ pad2 j ++ pdfExt) := by
          intro k hk
          rcases List.mem_cons.mp hk with rfl | hk'
          · exact ⟨lowerStr (safe_filename (page_base inv i) 120), hbase_i,
              Or.inr ⟨i, hi_rest, hKeq⟩⟩
          · obtain ⟨b, hb, hsh | ⟨j, hj, hsh⟩⟩ := hinv k hk'
            · exact ⟨b, hb, Or.inl hsh⟩
            · exact ⟨b, hb, Or.inr ⟨j, fun hmem2 => hj (List.mem_cons_of_mem i hmem2), hsh⟩⟩
        obtain ⟨pw, hnotin⟩ := ih _ hnd' hbase' hinv'
        dsimp only
        constructor
        · rw [List.pairwise_cons]
          refine ⟨?_, pw⟩
          intro e he heq
          apply hnotin e he
          rw [← heq]
          exact List.mem_cons_self _ _
        · intro e he
          rcases List.mem_cons.mp he with rfl | he'
          · exact hKnot
          · intro hmem2
            exact hnotin e he' (List.mem_cons_of_mem _ hmem2)
      · rw [if_neg hmem]
        have hinv' : ∀ k ∈ lowerStr (safe_filename (page_base inv i) 120 ++ pdfExt) :: used,
            ∃ b, hasDU b = false ∧
            (k = b ++ pdfExt ∨ ∃ j, j ∉ rest ∧ k = b ++ pSep ++ pad2 j ++ pdfExt) := by
          intro k hk
          rcases List.mem_cons.mp hk with rfl | hk'
          · exact ⟨lowerStr (safe_filename (page_base inv i) 120), hbase_i,
              Or.inl (lower_plain _)⟩
          · obtain ⟨b, hb, hsh | ⟨j, hj, hsh⟩⟩ := hinv k hk'
            · exact ⟨b, hb, Or.inl hsh⟩
            · exact ⟨b, hb, Or.inr ⟨j, fun hmem2 => hj (List.mem_cons_of_mem i hmem2), hsh⟩⟩
        obtain ⟨pw, hnotin⟩ := ih _ hnd' hbase' hinv'
        dsimp only
        constructor
        · rw [List.pairwise_cons]
          refine ⟨?_, pw⟩
          intro e he heq
          apply hnotin e he
          rw [← heq]
          exact List.mem_cons_self _ _
        · intro e he
          rcases List.mem_cons.mp he with rfl | he'
          · exact hmem
          · intro hmem2
            exact hnotin e he' (List.mem_cons_of_mem _ hmem2)

/-! ### Structure of the extractor's capture group -/

theorem findCutAux_le : ∀ (rev : Str) (nxt : Option Char) (k : Nat),
    findCutAux rev nxt = some k → 3 ≤ k ∧ k ≤ rev.length := by
  intro rev
  induction rev with
  | nil => intro nxt k h; exact absurd h (by simp [findCutAux])
  | cons c rest ih =>
    intro nxt k h
    unfold findCutAux at h
    split at h
    · rename_i hcond
      injection h with hk
      subst hk
      simp only [List.length_cons]
      exact ⟨hcond.1, Nat.le_refl _⟩
    · have := ih (some c) k h
      simp only [List.length_cons]
      omega

theorem matchAt_capture {cs cap : Str} (h : matchAt cs = some cap) :
    ∃ (d : Char) (run : Str) (k : Nat), cap = d :: run.take k ∧ isDigitChar d = true ∧
      (∀ c ∈ run, isDigitSpace c = true) ∧ 3 ≤ k ∧ k ≤ run.length := by
  simp only [matchAt] at h
  split at h
  · exact absurd h (by simp)
  · split at h
    · exact absurd h (by simp)
    · rename_i r5 hr5 d rest hrest
      split at h
      · split at h
        · rename_i hd hfc k hk
          injection h with hcap
          have hkb := findCutAux_le _ _ _ hk
          rw [List.length_reverse] at hkb
          refine ⟨d, rest.takeWhile isDigitSpace, k, hcap.symm, hd, ?_, hkb.1, hkb.2⟩
          intro c hc
          exact List.mem_takeWhile_imp hc
        · exact absurd h (by simp)
      · exact absurd h (by simp)

theorem searchAux_capture : ∀ (t : Str) (prev : Option Char) (cap : Str),
    searchAux prev t = some cap → ∃ cs, matchAt cs = some cap := by
  intro t
  induction t with
  | nil => intro prev cap h; exact absurd h (by simp [searchAux])
  | cons c cs ih =>
    intro prev cap h
    simp only [searchAux] at h
    cases hm : (if nonWordBefore prev = true then matchAt (c :: cs) else none) with
    | none => rw [hm] at h; exact ih (some c) cap h
    | some cap' =>
      rw [hm] at h
      injection h with hc
      subst hc
      by_cases hnb : nonWordBefore prev = true
      · rw [if_pos hnb] at hm
        exact ⟨c :: cs, hm⟩
      · rw [if_neg hnb] at hm
        exact absurd hm (by simp)

theorem digitSpace_not_space {c : Char} (h1 : isDigitSpace c = true) (h2 : isSpaceChar c = false) :
    isDigitChar c = true := by
  simp only [isDigitSpace, Bool.or_eq_true] at h1
  rcases h1 with h1 | h1
  · exact h1
  · rw [h1] at h2; exact absurd h2 (by simp)

theorem capture_digits {t cap : Str} (h : searchInvoice t = some cap) :
    normDigits cap ≠ [] ∧ ∀ c ∈ normDigits cap, isDigitChar c = true := by
  obtain ⟨cs, hm⟩ := searchAux_capture t none cap h
  obtain ⟨d, run, k, rfl, hd, hrun, _, _⟩ := matchAt_capture hm
  have hds : isSpaceChar d = false := digit_not_space hd
  constructor
  · simp only [normDigits, List.filter_cons, hds]
    simp
  · intro c hc
    simp only [normDigits, List.mem_filter, Bool.not_eq_eq_eq_not, Bool.not_true] at hc
    rcases List.mem_cons.mp hc.1 with rfl | hc1
    · exact hd
    · exact digitSpace_not_space (hrun c (List.take_subset _ _ hc1)) hc.2

theorem extract_eq (t : Str) :
    extract_tax_invoice_no t = Option.map normDigits (searchInvoice (preprocessText t)) := by
  simp only [extract_tax_invoice_no]
  cases hs : searchInvoice (preprocessText t) with
  | none => rfl
  | some cap =>
    obtain ⟨hne, hdig⟩ := capture_digits hs
    have hpy : pyIsdigit (normDigits cap) = true := by
      simp only [pyIsdigit, Bool.and_eq_true, Bool.not_eq_true']
      constructor
      · cases hnd : normDigits cap with
        | nil => exact absurd hnd hne
        | cons a b => rfl
      · rw [List.all_eq_true]
        exact hdig
    dsimp only
    rw [if_pos hpy]
    rfl

theorem extract_digits {t s : Str} (h : extract_tax_invoice_no t = some s) :
    s ≠ [] ∧ ∀ c ∈ s, isDigitChar c = true := by
  rw [extract_eq] at h
  cases hs : searchInvoice (preprocessText t) with
  | none => rw [hs] at h; exact absurd h (by simp)
  | some cap =>
    rw [hs] at h
    injection h with hc
    subst hc
    exact capture_digits hs

/-! ### Every base label of split sanitizes to a double-underscore-free name -/

theorem base_ok_of_inv (inv : Nat → Option Str)
    (hinv : ∀ i, inv i = none ∨ ∃ t, inv i = extract_tax_invoice_no t) :
    ∀ i, hasDU (lowerStr (safe_filename (page_base inv i) 120)) = false := by
  intro i
  rcases hinv i with h | ⟨t, h⟩
  · simp only [page_base, h]
    exact base_ok_unmatched i
  · simp only [page_base, h]
    cases he : extract_tax_invoice_no t with
    | none => exact base_ok_unmatched i
    | some s =>
      dsimp only
      by_cases hs : s.isEmpty = true
      · rw [if_pos hs]
        exact base_ok_unmatched i
      · rw [if_neg hs]
        exact base_ok_digits (extract_digits he).2

theorem textPageInv_cases (invs : List (Option Str)) (i : Nat)
    (h : ∀ o ∈ invs, o = none ∨ ∃ t, o = extract_tax_invoice_no t) :
    textPageInv invs i = none ∨ ∃ t, textPageInv invs i = extract_tax_invoice_no t := by
  unfold textPageInv
  rw [List.getD_eq_getElem?_getD]
  cases hg : invs[i - 1]? with
  | none => exact Or.inl rfl
  | some o =>
    have hmem : o ∈ invs := List.getElem?_mem hg
    simpa using h o hmem

theorem range'_nodup (s n : Nat) : (List.range' s n).Nodup := by
  have hp := List.pairwise_lt_range' s n 1 (by omega)
  exact hp.imp Nat.ne_of_lt

/-- C1: within one invocation of split, the filenames of the produced archive
entries are pairwise distinct under case-insensitive comparison (in particular
when the same base label is allocated three or more times).  This holds because
every base label split ever allocates is either an all-digit invoice number or
an `unmatched_page_NN` label, and neither contains a double underscore, so a
suffixed fallback name can never collide with an earlier name. -/
theorem c1_split_filenames_ci_distinct (doc : Document) (skip force : Bool) :
    (split_pdf_to_zip doc skip force).Pairwise (fun a b => lowerStr a.1 ≠ lowerStr b.1) := by
  unfold split_pdf_to_zip
  split
  · refine (emit_good _ _ _ _ [] (range'_nodup 1 doc.pypdfCount) ?_ ?_).1
    · intro i _
      apply base_ok_of_inv
      intro j
      apply textPageInv_cases
      intro o ho
      simp only [selected_invs] at ho
      split at ho
      · exact absurd ho (List.not_mem_nil o)
      · obtain ⟨t, _, rfl⟩ := List.mem_map.mp ho
        exact Or.inr ⟨t, rfl⟩
    · intro k hk
      exact absurd hk (List.not_mem_nil k)
  · refine (emit_good _ _ _ _ [] (range'_nodup 1 doc.ocrTexts.length) ?_ ?_).1
    · intro i _
      apply base_ok_of_inv
      intro j
      exact Or.inr ⟨doc.ocrTexts.getD (j - 1) [], rfl⟩
    · intro k hk
      exact absurd hk (List.not_mem_nil k)

/-! ### Strategy exclusivity and per-page emission behaviour -/

theorem emit_all_kind (inv : Nat → Option Str) (content : Nat → Content) (skip : Bool)
    (P : Content → Bool) (hP : ∀ i, P (content i) = true) :
    ∀ (pages : List Nat) (used : List Str),
      (emitPages inv content skip pages used).all (fun e => P e.2) = true := by
  intro pages
  induction pages with
  | nil => intro used; rfl
  | cons i rest ih =>
    intro used
    simp only [emitPages]
    split
    · exact ih used
    · simp [List.all_cons, hP i, ih _]

theorem matchAt_phrase {cs cap : Str} (h : matchAt cs = some cap) : phraseAt cs = true := by
  simp only [matchAt] at h
  split at h
  · exact absurd h (by simp)
  · rename_i r5 hr5
    simp [phraseAt, hr5]

theorem searchAux_phrase : ∀ (t : Str) (prev : Option Char) (cap : Str),
    searchAux prev t = some cap → phrasePresent t = true := by
  intro t
  induction t with
  | nil => intro prev cap h; exact absurd h (by simp [searchAux])
  | cons c cs ih =>
    intro prev cap h
    simp only [searchAux] at h
    cases hm : (if nonWordBefore prev = true then matchAt (c :: cs) else none) with
    | none =>
      rw [hm] at h
      have := ih (some c) cap h
      simp [phrasePresent, this]
    | some cap' =>
      rw [hm] at h
      by_cases hnb : nonWordBefore prev = true
      · rw [if_pos hnb] at hm
        have := matchAt_phrase hm
        simp [phrasePresent, this]
      · rw [if_neg hnb] at hm
        exact absurd hm (by simp)

theorem searchInvoice_capture_len {t cap : Str} (h : searchInvoice t = some cap) :
    4 ≤ cap.length := by
  obtain ⟨cs, hm⟩ := searchAux_capture t none cap h
  obtain ⟨d, run, k, rfl, _, _, hk3, hkl⟩ := matchAt_capture hm
  simp only [List.length_cons, List.length_take]
  omega

/-! ### Claim theorems -/

/-- C3: one invocation of split produces all of its entries via exactly one strategy:
the text-layer path exactly when some page produced a text-layer match and OCR is
not forced, the optical path otherwise; forcing OCR always deselects the text path.
No archive mixes entries from both paths. -/
theorem c3_single_strategy_per_invocation :
    (∀ (doc : Document) (skip force : Bool),
      (split_pdf_to_zip doc skip force).all
        (fun e => if text_strategy_selected doc force then e.2.isOriginal else e.2.isRaster)
        = true) ∧
    (∀ doc : Document, text_strategy_selected doc true = false) ∧
    ∀ (doc : Document) (skip : Bool),
      (split_pdf_to_zip doc skip true).all (fun e => e.2.isRaster) = true := by
  have hall : ∀ (doc : Document) (skip force : Bool),
      (split_pdf_to_zip doc skip force).all
        (fun e => if text_strategy_selected doc force then e.2.isOriginal else e.2.isRaster)
        = true := by
    intro doc skip force
    unfold split_pdf_to_zip
    by_cases hsel : text_strategy_selected doc force = true
    · simp only [hsel, if_pos hsel, if_true]
      exact emit_all_kind _ _ _ _ (fun i => rfl) _ []
    · have hs' : text_strategy_selected doc force = false := by
        simpa using hsel
      simp only [hs', Bool.false_eq_true, if_false]
      exact emit_all_kind _ _ _ _ (fun i => rfl) _ []
  refine ⟨hall, fun doc => rfl, ?_⟩
  intro doc skip
  have h := hall doc skip true
  have h2 : text_strategy_selected doc true = false := rfl
  simp only [h2, Bool.false_eq_true, if_false] at h
  exact h

/-- C4: a page with no detected invoice number is omitted entirely when
`skip_unmatched` is true and included under the positional placeholder label when
it is false; on the 3-page example document where only page 2 has no match,
`skip_unmatched = true` yields exactly the two entries for pages 1 and 3 and
`skip_unmatched = false` yields three entries with page 2 named
`unmatched_page_02.pdf`. -/
theorem c4_skip_unmatched_behaviour :
    split_pdf_to_zip doc3ex true false =
      [( "1111.pdf".toList, Content.original 0), ( "2222.pdf".toList, Content.original 2)] ∧
    split_pdf_to_zip doc3ex false false =
      [( "1111.pdf".toList, Content.original 0),
       ( "unmatched_page_02.pdf".toList, Content.original 1),
       ( "2222.pdf".toList, Content.original 2)] ∧
    ∀ (inv : Nat → Option Str) (content : Nat → Content) (i : Nat) (rest : List Nat)
      (used : List Str), inv i = none →
      emitPages inv content true (i :: rest) used = emitPages inv content true rest used ∧
      emitPages inv content false (i :: rest) used =
        ((build_unique_filename (unmatchedLabel i) used i).1, content i) ::
          emitPages inv content false rest (build_unique_filename (unmatchedLabel i) used i).2 := by
  refine ⟨by decide, by decide, ?_⟩
  intro inv content i rest used h
  constructor
  · simp [emitPages, truthyOpt, h]
  · simp [emitPages, truthyOpt, h, page_base]

theorem c4_witness :
    emitPages (textPageInv []) contentOriginal true (1 :: []) [] =
      emitPages (textPageInv []) contentOriginal true [] [] ∧
    emitPages (textPageInv []) contentOriginal false (1 :: []) [] =
      ((build_unique_filename (unmatchedLabel 1) [] 1).1, contentOriginal 1) ::
        emitPages (textPageInv []) contentOriginal false []
          (build_unique_filename (unmatchedLabel 1) [] 1).2 :=
  c4_skip_unmatched_behaviour.2.2 (textPageInv []) contentOriginal 1 [] [] (by decide)

/-- C10: when pypdf reports more pages than pdfplumber produced extraction results
for, the guarded lookup `invs[i-1] if (i-1) < len(invs) else None` yields `None`
for every page beyond the list, so such a page is treated as unmatched (skipped,
or emitted under the positional placeholder label) instead of reading out of
bounds. -/
theorem c10_lookup_never_out_of_bounds :
    ∀ (invs : List (Option Str)) (i : Nat), invs.length ≤ i - 1 →
      textPageInv invs i = none ∧
      ∀ (content : Nat → Content) (rest : List Nat) (used : List Str),
        emitPages (textPageInv invs) content true (i :: rest) used =
          emitPages (textPageInv invs) content true rest used ∧
        emitPages (textPageInv invs) content false (i :: rest) used =
          ((build_unique_filename (unmatchedLabel i) used i).1, content i) ::
            emitPages (textPageInv invs) content false rest
              (build_unique_filename (unmatchedLabel i) used i).2 := by
  intro invs i hlen
  have hnone : textPageInv invs i = none := by
    unfold textPageInv
    rw [List.getD_eq_getElem?_getD, List.getElem?_eq_none hlen]
    rfl
  refine ⟨hnone, ?_⟩
  intro content rest used
  constructor
  · simp [emitPages, truthyOpt, hnone]
  · simp [emitPages, truthyOpt, hnone, page_base]

theorem c10_witness : textPageInv [some ( "1234".toList)] 2 = none :=
  (c10_lookup_never_out_of_bounds [some ( "1234".toList)] 2 (by decide)).1

/-- C5: the allocator returns `sanitize(base) ++ ".pdf"` when that name's
lowercased form is not in the used set, and otherwise
`sanitize(base) ++ "__p" ++ pad2 page ++ ".pdf"`; in both cases the lowercased
chosen name is put at the front of the returned used set; the page ordinal is
zero-padded to at least two digits (page 3 gives "03", page 15 gives "15"). -/
theorem c5_allocator_contract :
    (∀ (base : Str) (used : List Str) (page : Nat),
      build_unique_filename base used page =
        if lowerStr (safe_filename base 120 ++ pdfExt) ∈ used then
          (safe_filename base 120 ++ pSep ++ pad2 page ++ pdfExt,
           lowerStr (safe_filename base 120 ++ pSep ++ pad2 page ++ pdfExt) :: used)
        else
          (safe_filename base 120 ++ pdfExt,
           lowerStr (safe_filename base 120 ++ pdfExt) :: used)) ∧
    pad2 3 = ['0', '3'] ∧ pad2 15 = ['1', '5'] ∧ ∀ p, 2 ≤ (pad2 p).length :=
  ⟨fun base used page => build_unique_spec base used page, by decide, by decide, pad2_len⟩

/-- C6: an invoice number whose digits are separated by spaces is accepted and
normalized: extraction on "Tax Invoice No: 1 0 0 7 5 8 5" returns "1007585". -/
theorem c6_spaced_digits_normalized :
    extract_tax_invoice_no ( "Tax Invoice No: 1 0 0 7 5 8 5".toList) =
      some ( "1007585".toList) := by
  decide

/-- C7: the label phrase is matched case-insensitively with an optional period,
optional colon and optional whitespace before the digits. -/
theorem c7_case_and_punctuation_tolerance :
    extract_tax_invoice_no ( "TAX INVOICE NO. 1007585".toList) = some ( "1007585".toList) ∧
    extract_tax_invoice_no ( "Tax Invoice No:1007585".toList) = some ( "1007585".toList) ∧
    extract_tax_invoice_no ( "Tax Invoice No 1007585".toList) = some ( "1007585".toList) := by
  refine ⟨by decide, by decide, by decide⟩

/-- C8: the sanitizer is total, its result is at most `maxLen` characters long,
and the result contains no reserved character and no control character
(code points 0 through 31). -/
theorem c8_sanitizer_output_safe :
    ∀ (s : Str) (maxLen : Nat),
      (safe_filename s maxLen).length ≤ maxLen ∧
      (safe_filename s maxLen).all (fun c => !(isForbiddenChar c)) = true := by
  intro s n
  refine ⟨safe_filename_len s n, ?_⟩
  rw [List.all_eq_true]
  intro c hc
  simp [safe_filename_not_forbidden hc]

/-- C9: the extractor equals the matcher followed by whitespace removal — the
`isdigit` guard never fires — and every returned string is a non-empty string of
digit characters, so it returns a non-empty all-digit string iff the pattern
matches. -/
theorem c9_isdigit_guard_unreachable :
    (∀ t : Str, extract_tax_invoice_no t =
      Option.map normDigits (searchInvoice (preprocessText t))) ∧
    ∀ t s : Str, extract_tax_invoice_no t = some s →
      s ≠ [] ∧ ∀ c ∈ s, isDigitChar c = true :=
  ⟨extract_eq, fun _ _ h => extract_digits h⟩

theorem c9_witness :
    ( "1007585".toList) ≠ [] ∧ ∀ c ∈ ( "1007585".toList), isDigitChar c = true :=
  c9_isdigit_guard_unreachable.2 ( "Tax Invoice No: 1007585".toList) ( "1007585".toList)
    (by decide)

/-- C2 as stated is false: the regex minimum `{3,}` counts raw captured characters
(digits plus embedded whitespace), not digits after whitespace removal, so
"Tax Invoice No: 1 2 3" matches and returns "123", which has fewer than 4 digit
characters. -/
theorem c2_counterexample :
    extract_tax_invoice_no ( "Tax Invoice No: 1 2 3".toList) = some ( "123".toList) ∧
    ( "123".toList).length < 4 := by
  refine ⟨by decide, by decide⟩

/-- C2 (amended): extraction returns nothing when the phrase is absent or when no
captured run of at least 4 characters (a digit followed by at least 3 further
digits or whitespace characters, ending at a word boundary) follows the phrase;
equivalently, every successful extraction comes from a raw capture of at least 4
characters, whose whitespace-free form is returned.  In particular
"Tax Invoice No: 123" yields no match. -/
theorem c2_none_conditions :
    extract_tax_invoice_no ( "Tax Invoice No: 123".toList) = none ∧
    ∀ t s : Str, extract_tax_invoice_no t = some s →
      phrasePresent (preprocessText t) = true ∧
      ∃ cap, searchInvoice (preprocessText t) = some cap ∧ 4 ≤ cap.length ∧
        s = normDigits cap := by
  refine ⟨by decide, ?_⟩
  intro t s h
  rw [extract_eq] at h
  cases hs : searchInvoice (preprocessText t) with
  | none => rw [hs] at h; exact absurd h (by simp)
  | some cap =>
    rw [hs] at h
    injection h with hc
    exact ⟨searchAux_phrase _ none cap hs, cap, rfl, searchInvoice_capture_len hs, hc.symm⟩

theorem c2_witness :
    phrasePresent (preprocessText ( "Tax Invoice No: 1 0 0 7 5 8 5".toList)) = true ∧
    ∃ cap, searchInvoice (preprocessText ( "Tax Invoice No: 1 0 0 7 5 8 5".toList)) = some cap ∧
      4 ≤ cap.length ∧ ( "1007585".toList) = normDigits cap :=
  c2_none_conditions.2 ( "Tax Invoice No: 1 0 0 7 5 8 5".toList) ( "1007585".toList) (by decide)
